import Mathlib

/-!
Verification development for the KPI-VN30 dashboard scraper
(`scripts/scrape-official.js`).  The JavaScript source is shallowly
embedded: pure functions become Lean functions over `List Char` / `String`
and `ℚ` (JS numbers are modelled as exact rationals, with NaN made explicit
where the source can produce it), stateful code becomes explicit state
passing, and fallible external calls (network fetch, PDF parse, OCR) are
modelled as `Option`-valued oracles passed in as parameters.  Text is
modelled over the ASCII fragment, where the source's NFD-decompose +
strip-combining-marks step is the identity, so `foldAscii` reduces to
ASCII lowercasing.
-/

namespace KpiScrape

/-- Whitespace characters recognised by the JS `\s` class (ASCII fragment). -/
def isJsSpace (c : Char) : Bool :=
  c == ' ' || c == '\t' || c == '\n' || c == '\r' || c == '\x0b' || c == '\x0c'

/-- `foldAscii` from the source: NFD-decompose, strip combining marks,
lowercase.  On the ASCII fragment modelled here the first two steps are the
identity, leaving ASCII lowercasing. -/
def foldAscii (s : String) : String :=
  String.mk (s.data.map Char.toLower)

/-- Substring scan: does `pat` occur contiguously inside `w`?  Models the JS
`String.prototype.includes` / an unanchored literal regex test. -/
def scanSub (pat : List Char) : List Char → Bool
  | [] => pat.isPrefixOf []
  | w@(_ :: rest) => pat.isPrefixOf w || scanSub pat rest

/-- String-level wrapper of `scanSub`, modelling `a.includes(b)`. -/
def containsStr (w pat : String) : Bool :=
  scanSub pat.data w.data

/-- Numeric value of a digit string (most significant first). -/
def digitsVal (cs : List Char) : ℕ :=
  cs.foldl (fun n c => n * 10 + (c.toNat - 48)) 0

/-- Decimal-literal part of JS `Number()` over the scrubbed alphabet
(digits, dot): `digits`, `digits.digits`, `digits.`, `.digits`; at least
one digit overall; anything else is NaN (`none`). -/
def jsNumCore (cs : List Char) : Option ℚ :=
  let intPart := cs.takeWhile Char.isDigit
  let rest := cs.dropWhile Char.isDigit
  match rest with
  | [] => if intPart.isEmpty then none else some (digitsVal intPart)
  | '.' :: frac =>
      if frac.all Char.isDigit && (!intPart.isEmpty || !frac.isEmpty) then
        some ((digitsVal intPart : ℚ) + (digitsVal frac : ℚ) / (10 : ℚ) ^ frac.length)
      else none
  | _ => none

/-- JS `Number()` semantics restricted to strings over the scrubbed alphabet
(digits, `,`, `.`, `-`): the empty string converts to `0`; an optional
leading minus followed by a decimal literal converts to its value; anything
else (any comma, stray minus, second dot) is NaN, modelled as `none`. -/
def jsStrToNum (s : String) : Option ℚ :=
  match s.data with
  | [] => some 0
  | '-' :: rest => (jsNumCore rest).map (fun q => -q)
  | cs => jsNumCore cs

/-- Result of `normalizeNumber`: JS `null`, JS `NaN`, or a finite number. -/
inductive JsNumResult where
  | null : JsNumResult
  | nan : JsNumResult
  | num (q : ℚ) : JsNumResult
deriving DecidableEq, Repr

/-- `normalizeNumber` from the source: falsy (empty) input yields `null`;
otherwise the string is scrubbed to digits, commas, dots and minus signs,
the separator-disambiguation rules are applied in order on the dot/comma
counts, and the reshaped string is converted with JS `Number()` semantics
(`NaN` kept explicit). -/
def normalizeNumber (s : String) : JsNumResult :=
  if s = "" then .null
  else
    let scrubbed := s.data.filter (fun c => c.isDigit || c == ',' || c == '.' || c == '-')
    let dotCount := scrubbed.count '.'
    let commaCount := scrubbed.count ','
    let reshaped :=
      if dotCount > 1 ∧ commaCount = 0 then scrubbed.filter (fun c => c != '.')
      else if commaCount > 1 ∧ dotCount = 0 then scrubbed.filter (fun c => c != ',')
      else if commaCount = 1 ∧ dotCount = 0 then
        scrubbed.map (fun c => if c == ',' then '.' else c)
      else if commaCount ≥ 1 ∧ dotCount ≥ 1 then scrubbed.filter (fun c => c != ',')
      else scrubbed
    match jsStrToNum (String.mk reshaped) with
    | none => .nan
    | some q => .num q

/-- Characters that may continue a numeric token (`[0-9.,]`). -/
def numTokenCont (c : Char) : Bool :=
  c.isDigit || c == '.' || c == ','

/-- Fuelled scanner behind `numTokens`; the fuel (an upper bound on the
remaining length) keeps the recursion structural so that the kernel can
evaluate it. -/
def numTokensGo : ℕ → List Char → List (List Char)
  | 0, _ => []
  | _, [] => []
  | fuel + 1, c :: rest =>
    if c.isDigit then
      (c :: rest.takeWhile numTokenCont) :: numTokensGo fuel (rest.dropWhile numTokenCont)
    else numTokensGo fuel rest

/-- Tokenisation performed by `raw.match(/[0-9][0-9.,]*/g)`: left-to-right
maximal runs starting at a digit and continuing through digits, dots and
commas. -/
def numTokens (cs : List Char) : List (List Char) :=
  numTokensGo cs.length cs

/-- Per-unit-kind minimum digit count used by `pickNumberToken`. -/
def minDigitsFor (unitKind : String) : ℕ :=
  if unitKind = "currency" then 6
  else if unitKind = "volume" then 2
  else if unitKind = "percent" then 1
  else if unitKind = "count" then 1
  else 1

/-- Digit count of a numeric token ignoring separators
(`token.replace(/[.,]/g, "").length`). -/
def digitCountTok (t : List Char) : ℕ :=
  (t.filter (fun c => !(c == '.' || c == ','))).length

/-- The source's scan over tokens: return the first token whose digit count
meets the minimum, else nothing. -/
def pickLoop (minDigits : ℕ) : List (List Char) → Option (List Char)
  | [] => none
  | t :: rest => if minDigits ≤ digitCountTok t then some t else pickLoop minDigits rest

/-- `pickNumberToken` from the source: tokenise the raw capture, return the
first token with enough digits for the unit kind, falling back to the first
token; if there is no token at all, return the raw capture unchanged. -/
def pickNumberToken (raw : String) (unitKind : String) : String :=
  match numTokens raw.data with
  | [] => raw
  | t0 :: _ =>
    match pickLoop (minDigitsFor unitKind) (numTokens raw.data) with
    | some t => String.mk t
    | none => String.mk t0

theorem pickLoop_eq_find? (m : ℕ) (ts : List (List Char)) :
    pickLoop m ts = ts.find? (fun t => decide (m ≤ digitCountTok t)) := by
  induction ts with
  | nil => rfl
  | cons t rest ih =>
    rw [pickLoop, List.find?_cons]
    by_cases h : m ≤ digitCountTok t <;> simp [h, ih]

/-- Claim C2 (amended): `normalizeNumber` applies the separator-disambiguation
rules in order, so that the four round-trip examples parse as specified;
`null` is returned exactly for the empty (falsy) input, while non-empty
unparsable input yields NaN (kept explicit), except input whose scrub removes
every character, which JS `Number("")` turns into the spurious value 0. -/
theorem normalizeNumber_disambiguation :
    normalizeNumber "1.234.567" = JsNumResult.num 1234567 ∧
    normalizeNumber "1,234,567" = JsNumResult.num 1234567 ∧
    normalizeNumber "1,234.56" = JsNumResult.num (123456 / 100) ∧
    normalizeNumber "1,23" = JsNumResult.num (123 / 100) ∧
    normalizeNumber "1.2.3,4" = JsNumResult.nan ∧
    normalizeNumber "abc" = JsNumResult.num 0 ∧
    (∀ s : String, normalizeNumber s = JsNumResult.null ↔ s = "") := by
  refine ⟨?_, ?_, ?_, ?_, ?_, ?_, ?_⟩
  · simp +decide [normalizeNumber, jsStrToNum, jsNumCore, digitsVal]
  · simp +decide [normalizeNumber, jsStrToNum, jsNumCore, digitsVal]
  · simp +decide [normalizeNumber, jsStrToNum, jsNumCore, digitsVal]
    norm_num
  · simp +decide [normalizeNumber, jsStrToNum, jsNumCore, digitsVal]
    norm_num
  · simp +decide [normalizeNumber, jsStrToNum, jsNumCore, digitsVal]
  · simp +decide [normalizeNumber, jsStrToNum, jsNumCore, digitsVal]
  · intro s
    constructor
    · intro hs
      by_contra hne
      rw [normalizeNumber, if_neg hne] at hs
      cases hj : jsStrToNum (String.mk
          (let scrubbed := s.data.filter (fun c => c.isDigit || c == ',' || c == '.' || c == '-')
           let dotCount := scrubbed.count '.'
           let commaCount := scrubbed.count ','
           if dotCount > 1 ∧ commaCount = 0 then scrubbed.filter (fun c => c != '.')
           else if commaCount > 1 ∧ dotCount = 0 then scrubbed.filter (fun c => c != ',')
           else if commaCount = 1 ∧ dotCount = 0 then
             scrubbed.map (fun c => if c == ',' then '.' else c)
           else if commaCount ≥ 1 ∧ dotCount ≥ 1 then scrubbed.filter (fun c => c != ',')
           else scrubbed)) <;>
        simp only [hj] at hs <;> exact JsNumResult.noConfusion hs
    · intro hs
      subst hs
      rfl

/-- Claim C2 (counterexample): the claim says unparsable input yields `null`
and never a spurious number, but `normalizeNumber "abc"` scrubs to the empty
string, which JS `Number("")` converts to the number 0, not `null`. -/
theorem normalizeNumber_claim_false :
    normalizeNumber "abc" = JsNumResult.num 0 ∧
    JsNumResult.num 0 ≠ JsNumResult.null := by
  constructor
  · simp +decide [normalizeNumber, jsStrToNum, jsNumCore, digitsVal]
  · intro h
    exact JsNumResult.noConfusion h

/-- Claim C3: `pickNumberToken` returns the first numeric token (maximal
digit-led run of digits, dots and commas) whose digit count ignoring
separators meets the per-unit-kind minimum, and falls back to the first
numeric token when none qualifies; in particular the two specified examples
hold. -/
theorem pickNumberToken_eq_find? (raw unitKind : String)
    (h : numTokens raw.data ≠ []) :
    pickNumberToken raw unitKind = String.mk
      (((numTokens raw.data).find?
          (fun t => decide (minDigitsFor unitKind ≤ digitCountTok t))).getD
        (numTokens raw.data).headI) := by
  rw [pickNumberToken, ← pickLoop_eq_find?]
  cases hnt : numTokens raw.data with
  | nil => exact absurd hnt h
  | cons t0 rest =>
    cases hpl : pickLoop (minDigitsFor unitKind) (t0 :: rest) <;> simp

theorem pickNumberToken_first_qualifying (raw unitKind : String)
    (h : numTokens raw.data ≠ []) :
    (∀ t, (numTokens raw.data).find?
        (fun t => decide (minDigitsFor unitKind ≤ digitCountTok t)) = some t →
      pickNumberToken raw unitKind = String.mk t) ∧
    ((numTokens raw.data).find?
        (fun t => decide (minDigitsFor unitKind ≤ digitCountTok t)) = none →
      pickNumberToken raw unitKind = String.mk (numTokens raw.data).headI) ∧
    pickNumberToken "Q3 2025 8.235.606 ty" "currency" = "8.235.606" ∧
    pickNumberToken "12.3 45.6" "currency" = "12.3" := by
  refine ⟨?_, ?_, by decide, by decide⟩
  · intro t hfind
    rw [pickNumberToken_eq_find? raw unitKind h, hfind]
    rfl
  · intro hfind
    rw [pickNumberToken_eq_find? raw unitKind h, hfind]
    rfl

/-- Witness for `pickNumberToken_first_qualifying` at the spec's own
example input. -/
theorem pickNumberToken_first_qualifying_witness :
    numTokens ("Q3 2025 8.235.606 ty" : String).data ≠ [] ∧
    pickNumberToken "Q3 2025 8.235.606 ty" "currency" = "8.235.606" :=
  ⟨by decide, (pickNumberToken_first_qualifying "Q3 2025 8.235.606 ty" "currency"
      (by decide)).2.2.1⟩

/-- `normalizeByUnit` from the source: `null`/NaN inputs are rejected, the
unit token and the surrounding match context are ASCII-folded, and the
per-unit-kind scaling rules are applied in the source's order (percent,
currency with token hints then context hints then magnitude inference,
volume, pass-through for count or unrecognised kinds). -/
def normalizeByUnit (value : JsNumResult) (unitToken context unitKind : String) :
    Option ℚ :=
  match value with
  | .null => none
  | .nan => none
  | .num v =>
    let token := foldAscii unitToken
    let ctx := foldAscii context
    if unitKind = "percent" then
      if (containsStr ctx "%" || containsStr token "%") = true ∨ |v| > 3 / 2 then
        some (v / 100)
      else some v
    else if unitKind = "currency" then
      if (containsStr token "billion" || containsStr token "ty") = true then some v
      else if (containsStr token "million" || containsStr token "trieu") = true then
        some (v / 1000)
      else if containsStr token "usd" = true then none
      else if (containsStr ctx "trieu" || containsStr ctx "million") = true then
        some (v / 1000)
      else if (containsStr ctx "ty" || containsStr ctx "billion") = true then some v
      else if |v| ≥ 1000000 then some (v / 1000000000)
      else if |v| ≥ 1000 then some (v / 1000)
      else some v
    else if unitKind = "volume" then
      if (containsStr token "million" || containsStr token "trieu") = true then some v
      else if (containsStr token "thousand" || containsStr token "nghin") = true then
        some (v / 1000)
      else if |v| > 100 then some (v / 1000)
      else some v
    else some v

/-- Claim C4 (amended): currency normalization applies the unit-token hints
first (billion/ty pass through, million/trieu divide by 1000, usd rejected),
then — only when the token carries no hint — context hints (trieu/million
divide by 1000, else ty/billion pass through), and only absent any token or
context hint the magnitude inference (≥1e6 divide by 1e9, ≥1e3 divide by
1e3, else pass through); with the spec's two concrete examples. -/
theorem normalizeByUnit_currency_rules (v : ℚ) (ctx : String) :
    normalizeByUnit (JsNumResult.num v) "ty" ctx "currency" = some v ∧
    normalizeByUnit (JsNumResult.num v) "billion" ctx "currency" = some v ∧
    normalizeByUnit (JsNumResult.num v) "trieu" ctx "currency" = some (v / 1000) ∧
    normalizeByUnit (JsNumResult.num v) "million" ctx "currency" = some (v / 1000) ∧
    normalizeByUnit (JsNumResult.num v) "usd" ctx "currency" = none ∧
    ((containsStr (foldAscii ctx) "trieu" || containsStr (foldAscii ctx) "million") = true →
      normalizeByUnit (JsNumResult.num v) "" ctx "currency" = some (v / 1000)) ∧
    ((containsStr (foldAscii ctx) "trieu" || containsStr (foldAscii ctx) "million") = false →
      (containsStr (foldAscii ctx) "ty" || containsStr (foldAscii ctx) "billion") = true →
      normalizeByUnit (JsNumResult.num v) "" ctx "currency" = some v) ∧
    ((containsStr (foldAscii ctx) "trieu" || containsStr (foldAscii ctx) "million") = false →
      (containsStr (foldAscii ctx) "ty" || containsStr (foldAscii ctx) "billion") = false →
      normalizeByUnit (JsNumResult.num v) "" ctx "currency" =
        if |v| ≥ 1000000 then some (v / 1000000000)
        else if |v| ≥ 1000 then some (v / 1000)
        else some v) ∧
    normalizeByUnit (JsNumResult.num 8235606) "ty" "q3 2025 8.235.606 ty" "currency" =
      some 8235606 ∧
    normalizeByUnit (JsNumResult.num 8235606) "trieu" "q3 2025 8.235.606 trieu" "currency" =
      some (8235606 / 1000) := by
  refine ⟨?_, ?_, ?_, ?_, ?_, ?_, ?_, ?_, ?_, ?_⟩
  · simp +decide [normalizeByUnit]
  · simp +decide [normalizeByUnit]
  · simp +decide [normalizeByUnit]
  · simp +decide [normalizeByUnit]
  · simp +decide [normalizeByUnit]
  · intro hctx
    simp +decide [normalizeByUnit, hctx]
  · intro hctx1 hctx2
    simp +decide [normalizeByUnit, hctx1, hctx2]
  · intro hctx1 hctx2
    simp +decide [normalizeByUnit, hctx1, hctx2]
  · simp +decide [normalizeByUnit]
  · simp +decide [normalizeByUnit]

/-- Witness for `normalizeByUnit_currency_rules`: at `v = 5` with the unit
context "x" no hint fires and the magnitude branch passes the value
through. -/
theorem normalizeByUnit_currency_rules_witness :
    (containsStr (foldAscii "x") "trieu" || containsStr (foldAscii "x") "million") = false ∧
    (containsStr (foldAscii "x") "ty" || containsStr (foldAscii "x") "billion") = false ∧
    normalizeByUnit (JsNumResult.num 5) "" "x" "currency" =
      if |(5 : ℚ)| ≥ 1000000 then some (5 / 1000000000 : ℚ)
      else if |(5 : ℚ)| ≥ 1000 then some (5 / 1000 : ℚ)
      else some 5 :=
  ⟨by decide, by decide,
    (normalizeByUnit_currency_rules 5 "x").2.2.2.2.2.2.2.1 (by decide) (by decide)⟩

/-- Claim C4 (counterexample): the claim says that absent an explicit unit
token a value of magnitude at least 1e6 is divided by 1e9, but with an empty
token and a context containing "trieu" the code divides by 1000 instead. -/
theorem normalizeByUnit_context_beats_magnitude :
    normalizeByUnit (JsNumResult.num 2000000) "" "2000000 trieu" "currency" = some 2000 ∧
    (2000 : ℚ) ≠ 2000000 / 1000000000 := by
  constructor
  · simp +decide [normalizeByUnit]
    norm_num
  · norm_num

/-- The closed set of 20 fiscal quarters, `PERIODS_Q` from the source. -/
def PERIODS_Q : List String :=
  ["2021Q1", "2021Q2", "2021Q3", "2021Q4",
   "2022Q1", "2022Q2", "2022Q3", "2022Q4",
   "2023Q1", "2023Q2", "2023Q3", "2023Q4",
   "2024Q1", "2024Q2", "2024Q3", "2024Q4",
   "2025Q1", "2025Q2", "2025Q3", "2025Q4"]

/-- One `{period, value|null}` point of a series. -/
structure SeriesPoint where
  period : String
  value : Option ℚ
deriving DecidableEq, Repr

/-- `blankSeries()` from the source: one all-null point per fixed period. -/
def blankSeries : List SeriesPoint :=
  PERIODS_Q.map (fun p => ⟨p, none⟩)

/-- The source's in-place mutation `series.find(x => x.period === period)`
followed by `target.value = v`: replace the value of the first point with
the given period, leaving the series unchanged when no point matches. -/
def setSeriesValue : List SeriesPoint → String → Option ℚ → List SeriesPoint
  | [], _, _ => []
  | pt :: rest, p, v =>
    if pt.period = p then ⟨pt.period, v⟩ :: rest
    else pt :: setSeriesValue rest p v

/-- Read access mirroring `series.find(x => x.period === period)`: `none`
when the period is absent, otherwise the stored `value` (itself optional). -/
def getSeriesValue (s : List SeriesPoint) (p : String) : Option (Option ℚ) :=
  (s.find? (fun pt => pt.period == p)).map (fun pt => pt.value)

/-- One explicit (or discovered) config entry `{period, url, pattern}`. -/
structure CfgEntry where
  period : String
  url : String
  pattern : String
deriving DecidableEq, Repr

/-- The guards of the explicit-entry loop of `hydrateSeries`: the period
must be one of the 20 fixed quarters and url/pattern must be truthy. -/
def validEntry (e : CfgEntry) : Bool :=
  decide (e.period ∈ PERIODS_Q) && e.url != "" && e.pattern != ""

/-- The explicit-entry loop of `hydrateSeries`, with the fetch-and-extract
pipeline abstracted into an oracle `f` (`none` models a thrown fetch error,
caught and skipped; `some v` models `extractValueFromText`'s result `v`,
which may itself be `null`).  The assignment `target.value = v` is
unconditional: no missing-set test guards it. -/
def runExplicitEntries (f : CfgEntry → Option (Option ℚ)) :
    List CfgEntry → List SeriesPoint → List SeriesPoint
  | [], s => s
  | e :: rest, s =>
    runExplicitEntries f rest
      (if validEntry e then
        match f e with
        | none => s
        | some v => setSeriesValue s e.period v
      else s)

/-- One discovery candidate `{url, text}` as consumed by `autoFillSeries`. -/
structure AutoCandidate where
  url : String
  text : String
deriving DecidableEq, Repr

/-- The candidate loop of `autoFillSeries`, with the per-candidate
period-inference-and-extraction pipeline abstracted into an oracle `g`
(`none` models any skip: fetch failure, no inferable period, extraction
returning null; `some (p, v)` models a successfully extracted non-null
value `v` attributed to period `p`).  Assignment happens only when `p` is
still in the missing set, which then shrinks by `p`. -/
def runAutoLoop (g : AutoCandidate → Option (String × ℚ)) :
    List AutoCandidate → List SeriesPoint → List String → List SeriesPoint
  | [], s, _ => s
  | c :: rest, s, missing =>
    if missing.isEmpty then s
    else
      match g c with
      | none => runAutoLoop g rest s missing
      | some pv =>
        if pv.1 ∈ missing then
          runAutoLoop g rest (setSeriesValue s pv.1 (some pv.2)) (missing.erase pv.1)
        else runAutoLoop g rest s missing

/-- The missing set computed at the top of `autoFillSeries`: the periods of
the points whose value is still null. -/
def missingPeriods (s : List SeriesPoint) : List String :=
  (s.filter (fun pt => pt.value.isNone)).map (fun pt => pt.period)

/-- `autoFillSeries`'s series mutation: run the candidate loop starting from
the missing set of the current series. -/
def runAutoFill (g : AutoCandidate → Option (String × ℚ))
    (cands : List AutoCandidate) (s : List SeriesPoint) : List SeriesPoint :=
  runAutoLoop g cands s (missingPeriods s)

/-- Chronological key of a period token `YYYYQn`. -/
def periodKey (p : String) : ℕ :=
  match p.data with
  | [y1, y2, y3, y4, _, q] => digitsVal [y1, y2, y3, y4] * 4 + (q.toNat - 48)
  | _ => 0

theorem getSeriesValue_cons (pt : SeriesPoint) (rest : List SeriesPoint)
    (p : String) :
    getSeriesValue (pt :: rest) p =
      if pt.period = p then some pt.value else getSeriesValue rest p := by
  by_cases h : pt.period = p <;> simp [getSeriesValue, List.find?_cons, h]

theorem getSeriesValue_setSeriesValue (s : List SeriesPoint) (q p : String)
    (v : Option ℚ) :
    getSeriesValue (setSeriesValue s q v) p =
      if q = p then (getSeriesValue s p).map (fun _ => v)
      else getSeriesValue s p := by
  induction s with
  | nil =>
    by_cases h : q = p <;> simp [setSeriesValue, getSeriesValue, h]
  | cons pt rest ih =>
    by_cases hq : pt.period = q
    · by_cases hp : q = p
      · simp [setSeriesValue, getSeriesValue_cons, hq, hp]
      · simp [setSeriesValue, getSeriesValue_cons, hq, hp]
    · by_cases hp : q = p
      · subst hp
        simp [setSeriesValue, getSeriesValue_cons, hq, ih]
      · by_cases hpp : pt.period = p
        · have hpq : p ≠ q := fun h => hq (hpp.trans h)
          simp [setSeriesValue, getSeriesValue_cons, hq, hp, hpp, hpq, ih]
        · simp [setSeriesValue, getSeriesValue_cons, hq, hp, hpp, ih]

theorem setSeriesValue_map_period (s : List SeriesPoint) (q : String)
    (v : Option ℚ) :
    (setSeriesValue s q v).map (fun pt => pt.period) =
      s.map (fun pt => pt.period) := by
  induction s with
  | nil => rfl
  | cons pt rest ih =>
    by_cases hq : pt.period = q <;> simp [setSeriesValue, hq, ih]

/-- The write (if any) the entry list performs last on period `p`: later
entries override earlier ones, invalid entries and oracle failures write
nothing. -/
def lastWrite (f : CfgEntry → Option (Option ℚ)) :
    List CfgEntry → String → Option (Option ℚ)
  | [], _ => none
  | e :: rest, p =>
    match lastWrite f rest p with
    | some v => some v
    | none => if validEntry e ∧ e.period = p then f e else none

/-- Overwrite semantics of a pending write on a current lookup result. -/
def applyWrite (w : Option (Option ℚ)) (cur : Option (Option ℚ)) :
    Option (Option ℚ) :=
  match w with
  | none => cur
  | some v => cur.map (fun _ => v)

theorem applyWrite_isSome (w cur : Option (Option ℚ)) :
    (applyWrite w cur).isSome = cur.isSome := by
  cases w <;> cases cur <;> rfl

theorem applyWrite_applyWrite (w w' cur : Option (Option ℚ)) :
    applyWrite w (applyWrite w' cur) =
      match w with
      | some v => applyWrite (some v) cur
      | none => applyWrite w' cur := by
  cases w <;> cases w' <;> cases cur <;> rfl

theorem getSeriesValue_runExplicitEntries
    (f : CfgEntry → Option (Option ℚ)) (entries : List CfgEntry)
    (s : List SeriesPoint) (p : String) :
    getSeriesValue (runExplicitEntries f entries s) p =
      applyWrite (lastWrite f entries p) (getSeriesValue s p) := by
  induction entries generalizing s with
  | nil => rfl
  | cons e rest ih =>
    rw [runExplicitEntries, ih, lastWrite]
    have hstep :
        getSeriesValue
          (if validEntry e then
            match f e with
            | none => s
            | some v => setSeriesValue s e.period v
          else s) p =
        applyWrite (if validEntry e ∧ e.period = p then f e else none)
          (getSeriesValue s p) := by
      by_cases hv : validEntry e
      · cases hfe : f e with
        | none =>
          by_cases hp : e.period = p <;> simp [hv, hfe, hp, applyWrite]
        | some v =>
          by_cases hp : e.period = p
          · simp [hv, hfe, hp, getSeriesValue_setSeriesValue, applyWrite]
          · simp [hv, hfe, hp, getSeriesValue_setSeriesValue, applyWrite]
      · simp [hv, applyWrite]
    rw [hstep]
    cases hlast : lastWrite f rest p with
    | none => simp [applyWrite_applyWrite]
    | some v => simp [applyWrite_applyWrite]

theorem runExplicitEntries_map_period
    (f : CfgEntry → Option (Option ℚ)) (entries : List CfgEntry)
    (s : List SeriesPoint) :
    (runExplicitEntries f entries s).map (fun pt => pt.period) =
      s.map (fun pt => pt.period) := by
  induction entries generalizing s with
  | nil => rfl
  | cons e rest ih =>
    rw [runExplicitEntries, ih]
    by_cases hv : validEntry e
    · cases hfe : f e <;> simp [hv, hfe, setSeriesValue_map_period]
    · simp [hv]

theorem runAutoLoop_map_period (g : AutoCandidate → Option (String × ℚ))
    (cands : List AutoCandidate) (s : List SeriesPoint)
    (missing : List String) :
    (runAutoLoop g cands s missing).map (fun pt => pt.period) =
      s.map (fun pt => pt.period) := by
  induction cands generalizing s missing with
  | nil => rfl
  | cons c rest ih =>
    rw [runAutoLoop]
    by_cases hm : missing.isEmpty
    · simp [hm]
    · cases hg : g c with
      | none => simp [hm, hg, ih]
      | some pv =>
        by_cases hp : pv.1 ∈ missing <;>
          simp [hm, hg, hp, ih, setSeriesValue_map_period]

theorem runAutoLoop_preserves_filled
    (g : AutoCandidate → Option (String × ℚ)) (cands : List AutoCandidate)
    (s : List SeriesPoint) (missing : List String) (p : String) (v : ℚ)
    (hnm : p ∉ missing) (hval : getSeriesValue s p = some (some v)) :
    getSeriesValue (runAutoLoop g cands s missing) p = some (some v) := by
  induction cands generalizing s missing with
  | nil => exact hval
  | cons c rest ih =>
    rw [runAutoLoop]
    by_cases hm : missing.isEmpty
    · simp [hm, hval]
    · cases hg : g c with
      | none => simp [hm, hg, ih _ _ hnm hval]
      | some pv =>
        by_cases hp : pv.1 ∈ missing
        · have hne : pv.1 ≠ p := fun h => hnm (h ▸ hp)
          have hval2 :
              getSeriesValue (setSeriesValue s pv.1 (some pv.2)) p =
                some (some v) := by
            rw [getSeriesValue_setSeriesValue, if_neg hne, hval]
          have hnm2 : p ∉ missing.erase pv.1 :=
            fun h => hnm (List.erase_subset _ _ h)
          simp [hm, hg, hp, ih _ _ hnm2 hval2]
        · simp [hm, hg, hp, ih _ _ hnm hval]

theorem mem_missingPeriods (s : List SeriesPoint) (p : String) :
    p ∈ missingPeriods s ↔ ∃ pt ∈ s, pt.value = none ∧ pt.period = p := by
  unfold missingPeriods
  simp only [List.mem_map, List.mem_filter]
  constructor
  · rintro ⟨pt, ⟨hmem, hnone⟩, hper⟩
    exact ⟨pt, hmem, Option.isNone_iff_eq_none.mp hnone, hper⟩
  · rintro ⟨pt, hmem, hnone, hper⟩
    exact ⟨pt, ⟨hmem, Option.isNone_iff_eq_none.mpr hnone⟩, hper⟩

theorem getSeriesValue_of_nodup (s : List SeriesPoint) (pt : SeriesPoint)
    (hnd : (s.map (fun x => x.period)).Nodup) (hmem : pt ∈ s) :
    getSeriesValue s pt.period = some pt.value := by
  induction s with
  | nil => cases hmem
  | cons hd rest ih =>
    rcases List.mem_cons.mp hmem with heq | htail
    · subst heq
      simp [getSeriesValue, List.find?_cons]
    · by_cases hper : hd.period = pt.period
      · exfalso
        have : pt.period ∈ rest.map (fun x => x.period) :=
          List.mem_map.mpr ⟨pt, htail, rfl⟩
        rw [List.map_cons, List.nodup_cons] at hnd
        exact hnd.1 (hper ▸ this)
      · have := ih (by rw [List.map_cons, List.nodup_cons] at hnd; exact hnd.2) htail
        simpa [getSeriesValue, List.find?_cons, hper] using this

/-- Claim C1 (amended): only the auto-search path is guarded by the missing
set — a period already holding a non-null value is never changed by any
auto-search candidate; the explicit-entry loop, by contrast, assigns
unconditionally, so re-running it merely rewrites the same (deterministic)
extraction results, leaving every value unchanged. -/
theorem hydration_overwrite_discipline :
    (∀ (g : AutoCandidate → Option (String × ℚ)) (cands : List AutoCandidate)
        (s : List SeriesPoint) (p : String) (v : ℚ),
      (s.map (fun pt => pt.period)).Nodup →
      getSeriesValue s p = some (some v) →
      getSeriesValue (runAutoFill g cands s) p = some (some v)) ∧
    (∀ (f : CfgEntry → Option (Option ℚ)) (entries : List CfgEntry)
        (s : List SeriesPoint) (p : String),
      getSeriesValue (runExplicitEntries f entries (runExplicitEntries f entries s)) p =
        getSeriesValue (runExplicitEntries f entries s) p) := by
  constructor
  · intro g cands s p v hnd hval
    have hnm : p ∉ missingPeriods s := by
      intro hmem
      rcases (mem_missingPeriods s p).mp hmem with ⟨pt, hptmem, hptnone, hptper⟩
      have := getSeriesValue_of_nodup s pt hnd hptmem
      rw [hptper, hval, hptnone] at this
      cases this
    exact runAutoLoop_preserves_filled g cands s (missingPeriods s) p v hnm hval
  · intro f entries s p
    rw [getSeriesValue_runExplicitEntries, getSeriesValue_runExplicitEntries]
    cases hlast : lastWrite f entries p with
    | none => simp [applyWrite]
    | some v =>
      cases hcur : getSeriesValue s p <;> simp [applyWrite]

def cexExtract : CfgEntry → Option (Option ℚ) :=
  fun e => if e.pattern = "p1" then some (some 5) else some none

def cexEntryA : CfgEntry := ⟨"2021Q1", "u", "p1"⟩

def cexEntryB : CfgEntry := ⟨"2021Q1", "u", "p2"⟩

/-- Claim C1 (counterexample): hydration does not assign at most once — a
later explicit entry for the same period overwrites the non-null value the
first entry stored, here replacing `5` with `null`. -/
theorem hydration_explicit_overwrites :
    getSeriesValue (runExplicitEntries cexExtract [cexEntryA] blankSeries) "2021Q1" =
      some (some 5) ∧
    getSeriesValue (runExplicitEntries cexExtract [cexEntryA, cexEntryB] blankSeries)
      "2021Q1" = some none := by
  constructor <;> decide

def witAutoOracle : AutoCandidate → Option (String × ℚ) :=
  fun _ => some ("2021Q2", 7)

def witFilledSeries : List SeriesPoint :=
  setSeriesValue blankSeries "2021Q1" (some 5)

/-- Witness for `hydration_overwrite_discipline`: with 2021Q1 already
filled with 5, an auto candidate targeting 2021Q2 leaves 2021Q1 intact. -/
theorem hydration_overwrite_discipline_witness :
    (witFilledSeries.map (fun pt => pt.period)).Nodup ∧
    getSeriesValue witFilledSeries "2021Q1" = some (some 5) ∧
    getSeriesValue (runAutoFill witAutoOracle [⟨"u", "t"⟩] witFilledSeries) "2021Q1" =
      some (some 5) :=
  ⟨by decide, by decide,
    hydration_overwrite_discipline.1 witAutoOracle [⟨"u", "t"⟩] witFilledSeries
      "2021Q1" 5 (by decide) (by decide)⟩

/-- Claim C5: `blankSeries` produces exactly 20 all-null points, one per
fixed period, in canonical chronological order with no duplicates, and both
hydration passes (explicit entries and auto-search) mutate only values,
preserving the period spine exactly. -/
theorem blankSeries_shape :
    blankSeries.length = 20 ∧
    blankSeries.map (fun pt => pt.period) = PERIODS_Q ∧
    (∀ pt ∈ blankSeries, pt.value = none) ∧
    PERIODS_Q.Nodup ∧
    List.Pairwise (fun a b => periodKey a < periodKey b) PERIODS_Q ∧
    (∀ (f : CfgEntry → Option (Option ℚ)) (entries : List CfgEntry)
        (s : List SeriesPoint),
      (runExplicitEntries f entries s).map (fun pt => pt.period) =
        s.map (fun pt => pt.period)) ∧
    (∀ (g : AutoCandidate → Option (String × ℚ)) (cands : List AutoCandidate)
        (s : List SeriesPoint),
      (runAutoFill g cands s).map (fun pt => pt.period) =
        s.map (fun pt => pt.period)) := by
  refine ⟨by decide, by decide, by decide, by decide, by decide, ?_, ?_⟩
  · intro f entries s
    exact runExplicitEntries_map_period f entries s
  · intro g cands s
    exact runAutoLoop_map_period g cands s (missingPeriods s)

/-- `quarterToRoman` from the source: digits 1–4 map to lowercase Roman
numerals, anything else to the empty string. -/
def quarterToRoman (q : List Char) : List Char :=
  if q = ['1'] then ['i']
  else if q = ['2'] then ['i', 'i']
  else if q = ['3'] then ['i', 'i', 'i']
  else if q = ['4'] then ['i', 'v']
  else []

/-- One attempt of the regex fragment `pre\s*suf` at the very start of `w`:
`pre`, then greedily skipped whitespace, then `suf`. -/
def gapMatchAt (pre suf w : List Char) : Bool :=
  pre.isPrefixOf w && suf.isPrefixOf ((w.drop pre.length).dropWhile isJsSpace)

/-- Unanchored test of the regex fragment `pre\s*suf` against `w`. -/
def scanGap (pre suf : List Char) : List Char → Bool
  | [] => gapMatchAt pre suf []
  | w@(_ :: rest) => gapMatchAt pre suf w || scanGap pre suf rest

/-- The proximity window `text.slice(max(0, index-180), index+260)`. -/
def matchWindow (text : List Char) (idx : ℕ) : List Char :=
  (text.drop (idx - 180)).take (idx + 260 - (idx - 180))

/-- `hasPeriodNearMatch` from the source: a falsy period (absent or empty)
passes unconditionally; otherwise the proximity window must case-insensitively
match one of the quarter patterns `q\s*N`, `quy\s*N`, `quy\s*ROMAN` and
(case-sensitively) contain the 4-digit year. -/
def hasPeriodNearMatch (text : String) (idx : ℕ) (period : Option String) : Bool :=
  match period with
  | none => true
  | some p =>
    if p = "" then true
    else
      let year := p.data.take 4
      let q := p.data.drop 5
      let roman := quarterToRoman q
      let w := matchWindow text.data idx
      let wl := w.map Char.toLower
      (scanGap ['q'] q wl || scanGap ['q', 'u', 'y'] q wl ||
        scanGap ['q', 'u', 'y'] roman wl) && scanSub year w

/-- A run of whitespace characters. -/
def SpaceRun (ws : List Char) : Prop := ∀ c ∈ ws, isJsSpace c = true

/-- Declarative occurrence of the pattern `pre\s*suf` somewhere inside `w`. -/
def GapOccurs (pre suf w : List Char) : Prop :=
  ∃ u ws v, w = u ++ (pre ++ (ws ++ (suf ++ v))) ∧ SpaceRun ws

theorem scanSub_iff (pat w : List Char) : scanSub pat w = true ↔ pat <:+: w := by
  induction w with
  | nil =>
    simp [scanSub, List.isPrefixOf_iff_prefix]
  | cons c rest ih =>
    rw [scanSub, Bool.or_eq_true, List.isPrefixOf_iff_prefix, ih,
      List.infix_cons_iff]

theorem dropWhile_spaceRun_append (ws t : List Char) (h : SpaceRun ws) :
    (ws ++ t).dropWhile isJsSpace = t.dropWhile isJsSpace := by
  induction ws with
  | nil => rfl
  | cons c rest ih =>
    have hc : isJsSpace c = true := h c (List.mem_cons_self c rest)
    have hrest : SpaceRun rest := fun x hx => h x (List.mem_cons_of_mem c hx)
    simp [List.dropWhile_cons, hc, ih hrest]

theorem gapMatchAt_iff (pre suf w : List Char) (c : Char) (t : List Char)
    (hsuf : suf = c :: t) (hc : isJsSpace c = false) :
    gapMatchAt pre suf w = true ↔
      ∃ ws v, w = pre ++ (ws ++ (suf ++ v)) ∧ SpaceRun ws := by
  rw [gapMatchAt, Bool.and_eq_true, List.isPrefixOf_iff_prefix,
    List.isPrefixOf_iff_prefix]
  constructor
  · rintro ⟨⟨r, hr⟩, hsufpre⟩
    have hdrop : w.drop pre.length = r := by rw [← hr, List.drop_left]
    rw [hdrop] at hsufpre
    rcases hsufpre with ⟨v, hv⟩
    refine ⟨r.takeWhile isJsSpace, v, ?_, fun x hx => List.mem_takeWhile_imp hx⟩
    have hr2 : r = r.takeWhile isJsSpace ++ (suf ++ v) := by
      rw [hv]
      exact (List.takeWhile_append_dropWhile isJsSpace r).symm
    rw [← hr]
    nth_rewrite 1 [hr2]
    rfl
  · rintro ⟨ws, v, hw, hws⟩
    constructor
    · exact ⟨ws ++ (suf ++ v), by rw [hw]⟩
    · have hdrop : w.drop pre.length = ws ++ (suf ++ v) := by
        rw [hw, List.drop_left]
      rw [hdrop, dropWhile_spaceRun_append ws (suf ++ v) hws, hsuf,
        List.cons_append]
      simp only [List.dropWhile_cons, hc]
      exact ⟨v, (List.cons_append c t v).symm ▸ rfl⟩

theorem gapOccurs_cons (pre suf : List Char) (c : Char) (w : List Char) :
    GapOccurs pre suf (c :: w) ↔
      (∃ ws v, c :: w = pre ++ (ws ++ (suf ++ v)) ∧ SpaceRun ws) ∨
        GapOccurs pre suf w := by
  constructor
  · rintro ⟨u, ws, v, h, hws⟩
    cases u with
    | nil => exact Or.inl ⟨ws, v, by simpa using h, hws⟩
    | cons x u2 =>
      rw [List.cons_append] at h
      right
      exact ⟨u2, ws, v, (List.cons_eq_cons.mp h).2, hws⟩
  · rintro (⟨ws, v, h, hws⟩ | ⟨u, ws, v, h, hws⟩)
    · exact ⟨[], ws, v, by simpa using h, hws⟩
    · exact ⟨c :: u, ws, v, by rw [h, List.cons_append], hws⟩

theorem scanGap_gapOccurs (pre : List Char) (c : Char) (t : List Char)
    (hc : isJsSpace c = false) (w : List Char) :
    scanGap pre (c :: t) w = true ↔ GapOccurs pre (c :: t) w := by
  induction w with
  | nil =>
    rw [scanGap, gapMatchAt_iff pre (c :: t) [] c t rfl hc]
    constructor
    · rintro ⟨ws, v, h, _⟩
      have := h.symm
      simp only [List.append_eq_nil] at this
      simp at this
    · rintro ⟨u, ws, v, h, _⟩
      have := h.symm
      simp only [List.append_eq_nil] at this
      simp at this
  | cons x rest ih =>
    rw [scanGap, Bool.or_eq_true, ih,
      gapMatchAt_iff pre (c :: t) (x :: rest) c t rfl hc, gapOccurs_cons]

theorem scanGap_iff (pre suf : List Char) (hsuf : suf ≠ [])
    (hc : isJsSpace suf.headI = false) (w : List Char) :
    scanGap pre suf w = true ↔ GapOccurs pre suf w := by
  cases suf with
  | nil => exact absurd rfl hsuf
  | cons c t => exact scanGap_gapOccurs pre c t hc w

set_option maxRecDepth 20000 in
/-- Claim C6: for a well-formed period `YYYYQn` strict-period validation
accepts a match exactly when the 180-before/260-after window contains the
4-digit year and one of the quarter markers `qN`, `quy N` (with optional
whitespace) or the Roman form `quy i/ii/iii/iv`; a match adjacent to the
folded text "quy 4 nam 2024" passes for period 2024Q4, while the same match
500 characters away from any period marker fails. -/
theorem hasPeriodNearMatch_window (text : String) (idx : ℕ) (year q : String)
    (hy : year.data.length = 4)
    (hq : q = "1" ∨ q = "2" ∨ q = "3" ∨ q = "4") :
    (hasPeriodNearMatch text idx (some (year ++ "Q" ++ q)) = true ↔
      ((GapOccurs ['q'] q.data ((matchWindow text.data idx).map Char.toLower) ∨
        GapOccurs ['q', 'u', 'y'] q.data
          ((matchWindow text.data idx).map Char.toLower) ∨
        GapOccurs ['q', 'u', 'y'] (quarterToRoman q.data)
          ((matchWindow text.data idx).map Char.toLower)) ∧
        year.data <:+: matchWindow text.data idx)) ∧
    hasPeriodNearMatch "doanh thu thuan 8.235 ty quy 4 nam 2024" 0
      (some "2024Q4") = true ∧
    hasPeriodNearMatch (String.mk (List.replicate 500 ' ') ++ "quy 4 nam 2024") 0
      (some "2024Q4") = false := by
  refine ⟨?_, by decide, by decide⟩
  have hQ : ("Q" : String).data = ['Q'] := rfl
  have hdata : (year ++ "Q" ++ q).data = year.data ++ 'Q' :: q.data := by
    rw [String.data_append, String.data_append, hQ, List.append_assoc]
    rfl
  have hne : year ++ "Q" ++ q ≠ "" := by
    intro h
    have h2 : (year ++ "Q" ++ q).data = ([] : List Char) := by rw [h]
    rw [hdata] at h2
    simp at h2
  have htake : (year ++ "Q" ++ q).data.take 4 = year.data := by
    rw [hdata, List.take_left' hy]
  have hdrop : (year ++ "Q" ++ q).data.drop 5 = q.data := by
    rw [hdata, List.append_cons, List.drop_left' (by simp [hy])]
  simp only [hasPeriodNearMatch, if_neg hne, htake, hdrop]
  rw [Bool.and_eq_true, Bool.or_eq_true, Bool.or_eq_true, scanSub_iff]
  rcases hq with h | h | h | h <;> subst h
  · rw [scanGap_iff ['q'] (String.data "1") (by decide) (by decide),
      scanGap_iff ['q', 'u', 'y'] (String.data "1") (by decide) (by decide),
      scanGap_iff ['q', 'u', 'y'] (quarterToRoman (String.data "1"))
        (by decide) (by decide), or_assoc]
  · rw [scanGap_iff ['q'] (String.data "2") (by decide) (by decide),
      scanGap_iff ['q', 'u', 'y'] (String.data "2") (by decide) (by decide),
      scanGap_iff ['q', 'u', 'y'] (quarterToRoman (String.data "2"))
        (by decide) (by decide), or_assoc]
  · rw [scanGap_iff ['q'] (String.data "3") (by decide) (by decide),
      scanGap_iff ['q', 'u', 'y'] (String.data "3") (by decide) (by decide),
      scanGap_iff ['q', 'u', 'y'] (quarterToRoman (String.data "3"))
        (by decide) (by decide), or_assoc]
  · rw [scanGap_iff ['q'] (String.data "4") (by decide) (by decide),
      scanGap_iff ['q', 'u', 'y'] (String.data "4") (by decide) (by decide),
      scanGap_iff ['q', 'u', 'y'] (quarterToRoman (String.data "4"))
        (by decide) (by decide), or_assoc]

/-- Witness for `hasPeriodNearMatch_window` at period 2024Q4 over a short
folded text containing the marker. -/
theorem hasPeriodNearMatch_window_witness :
    ("2024" : String).data.length = 4 ∧
    (("4" : String) = "1" ∨ ("4" : String) = "2" ∨ ("4" : String) = "3" ∨
      ("4" : String) = "4") ∧
    (hasPeriodNearMatch "quy 4 nam 2024" 0 (some ("2024" ++ "Q" ++ "4")) = true ↔
      ((GapOccurs ['q'] ("4" : String).data
          ((matchWindow ("quy 4 nam 2024" : String).data 0).map Char.toLower) ∨
        GapOccurs ['q', 'u', 'y'] ("4" : String).data
          ((matchWindow ("quy 4 nam 2024" : String).data 0).map Char.toLower) ∨
        GapOccurs ['q', 'u', 'y'] (quarterToRoman ("4" : String).data)
          ((matchWindow ("quy 4 nam 2024" : String).data 0).map Char.toLower)) ∧
        ("2024" : String).data <:+: matchWindow ("quy 4 nam 2024" : String).data 0)) :=
  ⟨by decide, by decide,
    (hasPeriodNearMatch_window "quy 4 nam 2024" 0 "2024" "4" (by decide)
      (by decide)).1⟩

/-- One regex match as consumed by `extractValueFromText`: overall match
text, match index, capture group 1 (the number) and optional capture group 2
(the unit token). -/
structure RxMatch where
  index : ℕ
  whole : String
  g1 : String
  g2 : Option String
deriving Repr

/-- The inner loop of `extractValueFromText` over the matches of one
pattern: pick the numeric token, parse it, normalize by unit, apply the
plausibility bounds, apply strict-period proximity, return the first
survivor. -/
def tryMatches (foldedText : String) (unitKind : String)
    (minValue maxValue : Option ℚ) (period : Option String) (strict : Bool) :
    List RxMatch → Option ℚ
  | [] => none
  | m :: rest =>
    match normalizeByUnit (normalizeNumber (pickNumberToken m.g1 unitKind))
        (m.g2.getD "") m.whole unitKind with
    | none => tryMatches foldedText unitKind minValue maxValue period strict rest
    | some v =>
      if (match minValue with
          | some mn => decide (v < mn)
          | none => false) = true then
        tryMatches foldedText unitKind minValue maxValue period strict rest
      else if (match maxValue with
          | some mx => decide (mx < v)
          | none => false) = true then
        tryMatches foldedText unitKind minValue maxValue period strict rest
      else if strict = true ∧ hasPeriodNearMatch foldedText m.index period = false then
        tryMatches foldedText unitKind minValue maxValue period strict rest
      else some v

/-- `extractValueFromText` from the source, with the JS regex engine
abstracted into a `matcher` oracle producing, per pattern and text, the
ordered list of matches that `regex.exec` would enumerate.  Patterns are
tried in order; the first surviving match wins. -/
def extractValueFromText (matcher : String → String → List RxMatch)
    (foldedText : String) (patterns : List String) (unitKind : String)
    (minValue maxValue : Option ℚ) (period : Option String) (strict : Bool) :
    Option ℚ :=
  match patterns with
  | [] => none
  | p :: rest =>
    match tryMatches foldedText unitKind minValue maxValue period strict
        (matcher p foldedText) with
    | some v => some v
    | none =>
      extractValueFromText matcher foldedText rest unitKind minValue maxValue
        period strict

/-- The call `extractValueFromText(doc.folded, [pattern], unitKind,
meta.minValue, meta.maxValue, null)` made by the explicit-entry path of
`hydrateSeries`: `period` is `null` and the omitted options leave
`strictPeriod` at its default `true`. -/
def hydrateExtract (matcher : String → String → List RxMatch)
    (docFolded : String) (pattern : String) (unitKind : String)
    (minValue maxValue : Option ℚ) : Option ℚ :=
  extractValueFromText matcher docFolded [pattern] unitKind minValue maxValue
    none true

theorem tryMatches_period_none (foldedText unitKind : String)
    (minValue maxValue : Option ℚ) (s1 s2 : Bool) (ms : List RxMatch) :
    tryMatches foldedText unitKind minValue maxValue none s1 ms =
      tryMatches foldedText unitKind minValue maxValue none s2 ms := by
  induction ms with
  | nil => rfl
  | cons m rest ih =>
    rw [tryMatches, tryMatches]
    have hnear : hasPeriodNearMatch foldedText m.index none = true := rfl
    cases normalizeByUnit (normalizeNumber (pickNumberToken m.g1 unitKind))
        (m.g2.getD "") m.whole unitKind with
    | none => exact ih
    | some v => simp [hnear, ih]

/-- Claim C10: a null or empty period makes `hasPeriodNearMatch` vacuously
true, so `extractValueFromText` invoked with `period = null` — as the
explicit-entry path of `hydrateSeries` does — enforces no period-proximity
constraint at all even though `strictPeriod` defaults to true. -/
theorem explicit_path_ignores_period :
    (∀ (text : String) (idx : ℕ), hasPeriodNearMatch text idx none = true) ∧
    (∀ (text : String) (idx : ℕ), hasPeriodNearMatch text idx (some "") = true) ∧
    (∀ (matcher : String → String → List RxMatch) (text : String)
        (patterns : List String) (unitKind : String) (mn mx : Option ℚ),
      extractValueFromText matcher text patterns unitKind mn mx none true =
        extractValueFromText matcher text patterns unitKind mn mx none false) ∧
    (∀ (matcher : String → String → List RxMatch) (text pat unitKind : String)
        (mn mx : Option ℚ),
      hydrateExtract matcher text pat unitKind mn mx =
        extractValueFromText matcher text [pat] unitKind mn mx none false) := by
  have hmain : ∀ (matcher : String → String → List RxMatch) (text : String)
      (patterns : List String) (unitKind : String) (mn mx : Option ℚ),
      extractValueFromText matcher text patterns unitKind mn mx none true =
        extractValueFromText matcher text patterns unitKind mn mx none false := by
    intro matcher text patterns unitKind mn mx
    induction patterns with
    | nil => rfl
    | cons p rest ih =>
      rw [extractValueFromText, extractValueFromText,
        tryMatches_period_none text unitKind mn mx true false, ih]
  exact ⟨fun _ _ => rfl, fun _ _ => rfl, hmain,
    fun matcher text pat unitKind mn mx => hmain matcher text [pat] unitKind mn mx⟩

/-- Fuelled worker for `collapseWs`: each maximal whitespace run becomes a
single space (`text.replace(/\s+/g, " ")`). -/
def collapseWsGo : ℕ → List Char → List Char
  | 0, _ => []
  | _, [] => []
  | fuel + 1, c :: rest =>
    if isJsSpace c then ' ' :: collapseWsGo fuel (rest.dropWhile isJsSpace)
    else c :: collapseWsGo fuel rest

/-- Whitespace-run collapsing used when computing a document's folded text. -/
def collapseWs (s : String) : String :=
  String.mk (collapseWsGo s.data.length s.data)

/-- `isPdf(url)` from the source: the lowercased URL contains ".pdf". -/
def isPdfUrl (url : String) : Bool :=
  containsStr (String.mk (url.data.map Char.toLower)) ".pdf"

/-- Case-insensitive prefix test; the pattern is given lowercase. -/
def isPrefixCI : List Char → List Char → Bool
  | [], _ => true
  | _ :: _, [] => false
  | p :: ps, c :: cs => (Char.toLower c == p) && isPrefixCI ps cs

/-- Fuelled scan for the closing tag of a lazily-matched block; returns the
remainder after the closing tag, or `none` when it never occurs. -/
def findCloseGo (close : List Char) : ℕ → List Char → Option (List Char)
  | 0, _ => none
  | _, [] => none
  | fuel + 1, w@(_ :: rest) =>
    if isPrefixCI close w then some (w.drop close.length)
    else findCloseGo close fuel rest

/-- Fuelled worker for the block-removing regex replaces
`/<script[\s\S]*?<\/script>/gi` and `/<style[\s\S]*?<\/style>/gi`: each
lazily-matched block becomes a single space; an opening tag without a later
closing tag matches nothing. -/
def removeBlocksGo (opening closing : List Char) : ℕ → List Char → List Char
  | 0, w => w
  | _, [] => []
  | fuel + 1, w@(c :: rest) =>
    if isPrefixCI opening w then
      match findCloseGo closing (rest.length + 1) (w.drop opening.length) with
      | some rem => ' ' :: removeBlocksGo opening closing fuel rem
      | none => c :: removeBlocksGo opening closing fuel rest
    else c :: removeBlocksGo opening closing fuel rest

/-- Fuelled worker for the tag-stripping replace `/<[^>]+>/g`: a `<`, at
least one non-`>` character, then `>` becomes a single space. -/
def stripTagsGo : ℕ → List Char → List Char
  | 0, w => w
  | _, [] => []
  | fuel + 1, c :: rest =>
    if c == '<' then
      if !(rest.takeWhile (fun x => x != '>')).isEmpty &&
          !(rest.drop (rest.takeWhile (fun x => x != '>')).length).isEmpty then
        ' ' :: stripTagsGo fuel
          (rest.drop ((rest.takeWhile (fun x => x != '>')).length + 1))
      else c :: stripTagsGo fuel rest
    else c :: stripTagsGo fuel rest

/-- HTML-to-text conversion of `fetchDocument`'s non-PDF branch: script and
style blocks are removed whole (content discarded), then remaining tags are
stripped. -/
def stripHtml (html : String) : String :=
  let noScript :=
    removeBlocksGo ("<script").data ("</script>").data html.data.length html.data
  let noStyle :=
    removeBlocksGo ("<style").data ("</style>").data noScript.length noScript
  String.mk (stripTagsGo noStyle.length noStyle)

/-- One cached document payload `{text, folded, buffer, isPdf, html}`. -/
structure FetchedDoc where
  text : String
  folded : String
  buffer : String
  isPdf : Bool
  html : String
deriving DecidableEq, Repr

/-- Lookup in the per-run document cache (`DOCUMENT_CACHE.has/get`). -/
def lookupCache (cache : List (String × FetchedDoc)) (url : String) :
    Option FetchedDoc :=
  (cache.find? (fun e => e.1 == url)).map (fun e => e.2)

/-- `fetchDocument` from the source, with the process-wide cache made an
explicit state and the external collaborators abstracted: `net` models
`fetchBuffer` (network fetch, `none` = thrown error) and `pdfParse` models
the pdf-parse text-layer backend (`none` = thrown parse error).  On a cache
hit the cached payload is returned untouched; on a miss the buffer is
fetched, classified by URL suffix, converted to text, folded, and the
payload is cached; on any failure the error propagates (`none`) and the
cache is left unchanged. -/
def fetchDocument (net : String → Option String)
    (pdfParse : String → Option String) (cache : List (String × FetchedDoc))
    (url : String) : Option FetchedDoc × List (String × FetchedDoc) :=
  match lookupCache cache url with
  | some d => (some d, cache)
  | none =>
    match net url with
    | none => (none, cache)
    | some buf =>
      if isPdfUrl url then
        match pdfParse buf with
        | none => (none, cache)
        | some t =>
          let d : FetchedDoc := ⟨t, collapseWs (foldAscii t), buf, true, ""⟩
          (some d, (url, d) :: cache)
      else
        let d : FetchedDoc :=
          ⟨stripHtml buf, collapseWs (foldAscii (stripHtml buf)), buf, false, buf⟩
        (some d, (url, d) :: cache)

/-- Claim C7: per distinct URL at most one fetch-and-parse happens — a cache
hit returns the cached payload untouched without consulting the network; a
network or parse failure propagates as an error and leaves the cache
unchanged; after any successful call the payload is cached and every
subsequent call returns that exact payload with the cache unchanged,
whatever the network or parser would now answer (so the cached document is
observably immutable). -/
theorem fetchDocument_cache_discipline :
    (∀ (net pdfParse : String → Option String)
        (cache : List (String × FetchedDoc)) (url : String) (d : FetchedDoc),
      lookupCache cache url = some d →
      fetchDocument net pdfParse cache url = (some d, cache)) ∧
    (∀ (net pdfParse : String → Option String)
        (cache : List (String × FetchedDoc)) (url : String),
      lookupCache cache url = none → net url = none →
      fetchDocument net pdfParse cache url = (none, cache)) ∧
    (∀ (net pdfParse : String → Option String)
        (cache : List (String × FetchedDoc)) (url : String) (buf : String),
      lookupCache cache url = none → net url = some buf → isPdfUrl url = true →
      pdfParse buf = none →
      fetchDocument net pdfParse cache url = (none, cache)) ∧
    (∀ (net pdfParse net2 pdfParse2 : String → Option String)
        (cache cache2 : List (String × FetchedDoc)) (url : String)
        (d : FetchedDoc),
      fetchDocument net pdfParse cache url = (some d, cache2) →
      fetchDocument net2 pdfParse2 cache2 url = (some d, cache2)) := by
  refine ⟨?_, ?_, ?_, ?_⟩
  · intro net pdfParse cache url d hl
    rw [fetchDocument, hl]
  · intro net pdfParse cache url hl hnet
    rw [fetchDocument, hl, hnet]
  · intro net pdfParse cache url buf hl hnet hpdf hparse
    rw [fetchDocument, hl, hnet]
    simp [hpdf, hparse]
  · intro net pdfParse net2 pdfParse2 cache cache2 url d hcall
    rw [fetchDocument] at hcall
    cases hl : lookupCache cache url with
    | some d0 =>
      simp only [hl, Prod.mk.injEq, Option.some.injEq] at hcall
      obtain ⟨hd, hc⟩ := hcall
      subst hd
      subst hc
      rw [fetchDocument, hl]
    | none =>
      simp only [hl] at hcall
      cases hnet : net url with
      | none => simp [hnet] at hcall
      | some buf =>
        simp only [hnet] at hcall
        by_cases hpdf : isPdfUrl url = true
        · simp only [if_pos hpdf] at hcall
          cases hparse : pdfParse buf with
          | none => simp [hparse] at hcall
          | some t =>
            simp only [hparse, Prod.mk.injEq, Option.some.injEq] at hcall
            obtain ⟨hd, hc⟩ := hcall
            rw [fetchDocument, ← hc]
            simp [lookupCache, List.find?_cons, hd]
        · simp only [if_neg hpdf, Prod.mk.injEq, Option.some.injEq] at hcall
          obtain ⟨hd, hc⟩ := hcall
          rw [fetchDocument, ← hc]
          simp [lookupCache, List.find?_cons, hd]

def witNet : String → Option String :=
  fun u => if u = "a.pdf" then some "BUF" else none

def witPdfParse : String → Option String :=
  fun _ => some "T"

def witDoc : FetchedDoc :=
  ⟨"T", "t", "BUF", true, ""⟩

/-- Witness for `fetchDocument_cache_discipline`: a concrete first fetch of
"a.pdf" caches the payload, and a repeat call with a dead network still
returns the identical payload with the cache unchanged. -/
theorem fetchDocument_cache_discipline_witness :
    fetchDocument witNet witPdfParse [] "a.pdf" =
      (some witDoc, [("a.pdf", witDoc)]) ∧
    fetchDocument (fun _ => none) (fun _ => none) [("a.pdf", witDoc)] "a.pdf" =
      (some witDoc, [("a.pdf", witDoc)]) :=
  ⟨by decide,
    fetchDocument_cache_discipline.2.2.2 witNet witPdfParse (fun _ => none)
      (fun _ => none) [] [("a.pdf", witDoc)] "a.pdf" witDoc (by decide)⟩

/-- Fuelled counter of maximal non-whitespace runs, modelling
`kw.trim().split(/\s+/).length` for the keyword-weight computation. -/
def wordRunsGo : ℕ → List Char → ℕ
  | 0, _ => 0
  | _, [] => 0
  | fuel + 1, c :: rest =>
    if isJsSpace c then wordRunsGo fuel rest
    else 1 + wordRunsGo fuel (rest.dropWhile (fun x => !isJsSpace x))

/-- `Math.max(1, kw.trim().split(/\s+/).length)` from `scoreOcrText`. -/
def keywordWeight (kw : String) : ℕ :=
  max 1 (wordRunsGo kw.data.length kw.data)

/-- `scoreOcrText` from the source: fold the OCR text, cap the digit count
at 500, add 1000 per word-count-weighted keyword occurrence. -/
def scoreOcrText (text : String) (keywords : List String) : ℕ :=
  let folded := foldAscii text
  let digitScore := min 500 (folded.data.filter Char.isDigit).length
  let keywordScore := keywords.foldl
    (fun acc kw => if containsStr folded kw then acc + keywordWeight kw else acc) 0
  keywordScore * 1000 + digitScore

/-- The per-page rotation loop of `ocrWithCli`, with the OCR binary
abstracted into an oracle `ocr` from rotation angle to recognised text.
Keeps the best-scoring rotation; when `req` (requireKeywords) holds, the
unrotated pass with a keywordless score is skipped as a candidate; an
unrotated pass scoring at least 1000 short-circuits the remaining
rotations. -/
def bestLoop (ocr : ℕ → String) (keywords : List String) (req : Bool) :
    List ℕ → String → ℤ → String
  | [], bestText, _ => bestText
  | angle :: rest, bestText, bestScore =>
    if req = true ∧ ((scoreOcrText (ocr angle) keywords : ℤ) < 1000 ∧ angle = 0) then
      bestLoop ocr keywords req rest bestText bestScore
    else
      if angle = 0 ∧ (1000 : ℤ) ≤ (scoreOcrText (ocr angle) keywords : ℤ) then
        (if bestScore < (scoreOcrText (ocr angle) keywords : ℤ) then ocr angle
         else bestText)
      else
        bestLoop ocr keywords req rest
          (if bestScore < (scoreOcrText (ocr angle) keywords : ℤ) then ocr angle
           else bestText)
          (if bestScore < (scoreOcrText (ocr angle) keywords : ℤ) then
            (scoreOcrText (ocr angle) keywords : ℤ)
           else bestScore)

/-- Per-page best text, starting from the empty string and score `-1`. -/
def bestTextForPage (ocr : ℕ → String) (keywords : List String) (req : Bool)
    (angles : List ℕ) : String :=
  bestLoop ocr keywords req angles "" (-1)

/-- The source's normalisation of `opts.rotateAngles`: an absent/empty list
becomes `[0]`, and `0` is prepended when missing. -/
def rotateAnglesOf (raw : List ℕ) : List ℕ :=
  if raw.isEmpty then [0] else if 0 ∈ raw then raw else 0 :: raw

/-- `ocrWithCli` from the source (multi-rotation path), with the OCR binary
abstracted into an oracle indexed by page and rotation angle: each page
contributes a newline plus its best rotation text; `requireKeywords` is
effective only when the keyword list is non-empty. -/
def ocrWithCli (ocr : ℕ → ℕ → String) (pages : List ℕ) (rawAngles : List ℕ)
    (keywords : List String) (requireKeywordsOpt : Bool) : String :=
  pages.foldl
    (fun acc p =>
      acc ++ "\n" ++
        bestTextForPage (ocr p) keywords (requireKeywordsOpt && !keywords.isEmpty)
          (rotateAnglesOf rawAngles))
    ""

theorem bestLoop_mem (ocr : ℕ → String) (keywords : List String)
    (angles : List ℕ) (bt : String) (bs : ℤ) (h0 : 0 ∉ angles) :
    bestLoop ocr keywords true angles bt bs ∈ bt :: angles.map ocr := by
  induction angles generalizing bt bs with
  | nil => exact List.mem_cons_self bt []
  | cons a rest ih =>
    have ha : a ≠ 0 := fun h => h0 (h ▸ List.mem_cons_self a rest)
    have h0r : 0 ∉ rest := fun h => h0 (List.mem_cons_of_mem a h)
    rw [bestLoop]
    rw [if_neg (by simp [ha]), if_neg (by simp [ha])]
    by_cases hlt : bs < (scoreOcrText (ocr a) keywords : ℤ)
    · simp only [if_pos hlt]
      have := ih (ocr a) (scoreOcrText (ocr a) keywords : ℤ) h0r
      rcases List.mem_cons.mp this with h | h
      · rw [h]
        exact List.mem_cons_of_mem bt (List.mem_cons_self (ocr a) (rest.map ocr))
      · exact List.mem_cons_of_mem bt (List.mem_cons_of_mem (ocr a) h)
    · simp only [if_neg hlt]
      have := ih bt bs h0r
      rcases List.mem_cons.mp this with h | h
      · rw [h]
        exact List.mem_cons_self bt _
      · exact List.mem_cons_of_mem bt (List.mem_cons_of_mem (ocr a) h)

/-- Claim C9 (amended): when `requireKeywords` is set and the unrotated
OCR text has zero keyword matches (score below 1000), the unrotated pass is
excluded from candidacy unconditionally — its text is never "returned as
best-available".  With extra rotation angles configured the page's text is
one of the non-zero rotations' outputs, but when 0 is the only configured
angle the page contributes the empty string even though rotation 0 produced
text. -/
theorem ocr_requireKeywords_skips_unrotated (ocr : ℕ → String)
    (keywords : List String) (rest : List ℕ)
    (hscore : (scoreOcrText (ocr 0) keywords : ℤ) < 1000) (hrest : 0 ∉ rest) :
    (rest = [] → bestTextForPage ocr keywords true (0 :: rest) = "") ∧
    (rest ≠ [] → bestTextForPage ocr keywords true (0 :: rest) ∈ rest.map ocr) := by
  have hstep : bestTextForPage ocr keywords true (0 :: rest) =
      bestLoop ocr keywords true rest "" (-1) := by
    rw [bestTextForPage, bestLoop, if_pos ⟨rfl, hscore, rfl⟩]
  constructor
  · intro h
    subst h
    rw [hstep]
    rfl
  · intro h
    cases rest with
    | nil => exact absurd rfl h
    | cons a rest2 =>
      have ha : a ≠ 0 := fun hh => hrest (hh ▸ List.mem_cons_self a rest2)
      have h0r : 0 ∉ rest2 := fun hh => hrest (List.mem_cons_of_mem a hh)
      rw [hstep, bestLoop]
      rw [if_neg (by simp [ha]), if_neg (by simp [ha])]
      have hlt : (-1 : ℤ) < (scoreOcrText (ocr a) keywords : ℤ) := by
        have : (0 : ℤ) ≤ (scoreOcrText (ocr a) keywords : ℤ) := Int.natCast_nonneg _
        omega
      simp only [if_pos hlt]
      have := bestLoop_mem ocr keywords rest2 (ocr a)
        (scoreOcrText (ocr a) keywords : ℤ) h0r
      rcases List.mem_cons.mp this with hh | hh
      · rw [hh]
        exact List.mem_cons_self (ocr a) (rest2.map ocr)
      · exact List.mem_cons_of_mem (ocr a) hh

def witOcrOracle : ℕ → String :=
  fun a => if a = 0 then "123" else "456"

/-- Witness for `ocr_requireKeywords_skips_unrotated`: rotation 0 reads
"123" (no keyword, score 3), rotation 90 reads "456", and the page's best
text is rotation 90's output. -/
theorem ocr_requireKeywords_skips_unrotated_witness :
    (scoreOcrText (witOcrOracle 0) ["doanh"] : ℤ) < 1000 ∧
    (0 : ℕ) ∉ ([90] : List ℕ) ∧
    bestTextForPage witOcrOracle ["doanh"] true [0, 90] ∈
      ([90] : List ℕ).map witOcrOracle :=
  ⟨by decide, by decide,
    (ocr_requireKeywords_skips_unrotated witOcrOracle ["doanh"] [90] (by decide)
      (by decide)).2 (by decide)⟩

/-- Claim C9 (counterexample): with `requireKeywords` set, rotation list
`[0]` and a page whose unrotated OCR text "123" has no keyword match, the
page contributes only the empty string — the best-available text is *not*
returned, contradicting the claim that a page never contributes empty text
when some rotation produced text. -/
theorem ocr_requireKeywords_drops_page :
    ocrWithCli (fun _ _ => "123") [1] [0] ["doanh thu"] true = "\n" ∧
    (fun _ _ => "123" : ℕ → ℕ → String) 1 0 ≠ "" := by
  constructor
  · decide
  · decide

/-- One guarded filter stage of `autoFillSeries`'s pipeline: a stage that
would empty the pool is skipped (`if (filtered.length) candidates =
filtered`). -/
def applyStage (p : AutoCandidate → Bool) (l : List AutoCandidate) :
    List AutoCandidate :=
  if (l.filter p).isEmpty then l else l.filter p

/-- Fuel-free worker of `dedupeEntries` with its seen-set made explicit:
falsy-URL items are dropped, later duplicates (by URL) are dropped. -/
def dedupeEntriesGo : List AutoCandidate → List String → List AutoCandidate
  | [], _ => []
  | c :: rest, seen =>
    if c.url = "" then dedupeEntriesGo rest seen
    else if c.url ∈ seen then dedupeEntriesGo rest seen
    else c :: dedupeEntriesGo rest (c.url :: seen)

/-- `dedupeEntries` from the source. -/
def dedupeEntries (l : List AutoCandidate) : List AutoCandidate :=
  dedupeEntriesGo l []

/-- The candidate preparation pipeline of `autoFillSeries`
(src lines 938-961): keyword filter, requires-PDF filter and
inferable-period filter, each guarded against emptying the pool; then
dedupe by URL, score, drop scores below 3 unconditionally, sort descending
by score, truncate to `maxDocs`, and strip the score field.  The
KPI-specific keyword test folds URL and anchor text; period inference
(`inferPeriodFromString`, a regex routine) and candidate scoring
(`scoreCandidate`) are abstracted as parameters. -/
def candidatePipeline (urlKeywords : List String) (requiresPdf : Bool)
    (inferPeriod : String → Option String) (scoreFn : AutoCandidate → ℕ)
    (maxDocs : ℕ) (cands : List AutoCandidate) : List AutoCandidate :=
  let keywordList := urlKeywords.map foldAscii
  let c1 := if keywordList.isEmpty then cands
    else applyStage (fun item => keywordList.any (fun k =>
      containsStr (foldAscii item.url) k || containsStr (foldAscii item.text) k))
      cands
  let c2 := if requiresPdf then applyStage (fun item => isPdfUrl item.url) c1
    else c1
  let c3 := applyStage
    (fun item => (inferPeriod item.url).isSome || (inferPeriod item.text).isSome) c2
  let scored := (dedupeEntries c3).map (fun item => (item, scoreFn item))
  let kept := scored.filter (fun pr => decide (3 ≤ pr.2))
  let sorted := kept.mergeSort (fun a b => decide (b.2 ≤ a.2))
  (sorted.take maxDocs).map (fun pr => pr.1)

theorem applyStage_sublist (p : AutoCandidate → Bool) (l : List AutoCandidate) :
    (applyStage p l).Sublist l := by
  rw [applyStage]
  by_cases h : (l.filter p).isEmpty <;> simp [h, List.filter_sublist]

theorem dedupeEntriesGo_sublist (l : List AutoCandidate) (seen : List String) :
    (dedupeEntriesGo l seen).Sublist l := by
  induction l generalizing seen with
  | nil => exact List.Sublist.refl []
  | cons c rest ih =>
    rw [dedupeEntriesGo]
    by_cases h1 : c.url = ""
    · simp only [if_pos h1]
      exact List.Sublist.cons c (ih seen)
    · simp only [if_neg h1]
      by_cases h2 : c.url ∈ seen
      · simp only [if_pos h2]
        exact List.Sublist.cons c (ih seen)
      · simp only [if_neg h2]
        exact List.Sublist.cons₂ c (ih (c.url :: seen))

theorem dedupeEntriesGo_not_seen (l : List AutoCandidate) (seen : List String) :
    ∀ c ∈ dedupeEntriesGo l seen, c.url ∉ seen := by
  induction l generalizing seen with
  | nil => intro c hc; cases hc
  | cons c0 rest ih =>
    intro c hc
    rw [dedupeEntriesGo] at hc
    by_cases h1 : c0.url = ""
    · rw [if_pos h1] at hc
      exact ih seen c hc
    · rw [if_neg h1] at hc
      by_cases h2 : c0.url ∈ seen
      · rw [if_pos h2] at hc
        exact ih seen c hc
      · rw [if_neg h2] at hc
        rcases List.mem_cons.mp hc with heq | htail
        · subst heq
          exact h2
        · intro hmem
          exact ih (c0.url :: seen) c htail (List.mem_cons_of_mem c0.url hmem)

theorem dedupeEntriesGo_nodup (l : List AutoCandidate) (seen : List String) :
    ((dedupeEntriesGo l seen).map (fun c => c.url)).Nodup := by
  induction l generalizing seen with
  | nil => exact List.nodup_nil
  | cons c0 rest ih =>
    rw [dedupeEntriesGo]
    by_cases h1 : c0.url = ""
    · rw [if_pos h1]
      exact ih seen
    · rw [if_neg h1]
      by_cases h2 : c0.url ∈ seen
      · rw [if_pos h2]
        exact ih seen
      · rw [if_neg h2, List.map_cons, List.nodup_cons]
        refine ⟨?_, ih (c0.url :: seen)⟩
        intro hmem
        rcases List.mem_map.mp hmem with ⟨c, hc, hurl⟩
        exact dedupeEntriesGo_not_seen rest (c0.url :: seen) c hc
          (hurl ▸ List.mem_cons_self c0.url seen)

/-- Claim C8: the auto-search candidate list applies the keyword,
requires-PDF and inferable-period filters in order, each only when it keeps
the pool non-empty; survivors are deduplicated by URL, sub-3 scores are
discarded unconditionally, the rest are sorted in descending score order
and truncated to the configured maximum — so every output candidate scores
at least 3, the output is sorted descending, has no duplicate URL, has at
most `maxDocs` elements, and consists of input candidates. -/
theorem candidatePipeline_post (urlKeywords : List String) (requiresPdf : Bool)
    (inferPeriod : String → Option String) (scoreFn : AutoCandidate → ℕ)
    (maxDocs : ℕ) (cands : List AutoCandidate) :
    (∀ c ∈ candidatePipeline urlKeywords requiresPdf inferPeriod scoreFn maxDocs
        cands, 3 ≤ scoreFn c) ∧
    (candidatePipeline urlKeywords requiresPdf inferPeriod scoreFn maxDocs
        cands).Pairwise (fun a b => scoreFn b ≤ scoreFn a) ∧
    (candidatePipeline urlKeywords requiresPdf inferPeriod scoreFn maxDocs
        cands).length ≤ maxDocs ∧
    ((candidatePipeline urlKeywords requiresPdf inferPeriod scoreFn maxDocs
        cands).map (fun c => c.url)).Nodup ∧
    (∀ c ∈ candidatePipeline urlKeywords requiresPdf inferPeriod scoreFn maxDocs
        cands, c ∈ cands) ∧
    (∀ (p : AutoCandidate → Bool) (l : List AutoCandidate),
      ((l.filter p).isEmpty = false → applyStage p l = l.filter p) ∧
      ((l.filter p).isEmpty = true → applyStage p l = l)) := by
  rw [candidatePipeline]
  set kwStage := (if (urlKeywords.map foldAscii).isEmpty then cands
    else applyStage (fun item => (urlKeywords.map foldAscii).any (fun k =>
      containsStr (foldAscii item.url) k || containsStr (foldAscii item.text) k))
      cands) with hkw
  set c2 := (if requiresPdf then applyStage (fun item => isPdfUrl item.url) kwStage
    else kwStage) with hc2
  set c3 := applyStage
    (fun item => (inferPeriod item.url).isSome || (inferPeriod item.text).isSome)
    c2 with hc3
  set scored := (dedupeEntries c3).map (fun item => (item, scoreFn item))
    with hscored
  set kept := scored.filter (fun pr => decide (3 ≤ pr.2)) with hkept
  set sorted := kept.mergeSort (fun a b => decide (b.2 ≤ a.2)) with hsorted
  have hscored_snd : ∀ pr ∈ scored, pr.2 = scoreFn pr.1 := by
    intro pr hpr
    rcases List.mem_map.mp hpr with ⟨item, _, heq⟩
    rw [← heq]
  have hperm : sorted.Perm kept := List.mergeSort_perm kept _
  have hkept_sub : kept.Sublist scored := List.filter_sublist scored
  have hmem_scored : ∀ pr ∈ sorted, pr ∈ scored := by
    intro pr hpr
    exact hkept_sub.mem (hperm.mem_iff.mp hpr)
  have hmem_take : ∀ pr ∈ sorted.take maxDocs, pr ∈ sorted := by
    intro pr hpr
    exact (List.take_sublist maxDocs sorted).mem hpr
  have hc3_sub : c3.Sublist c2 := applyStage_sublist _ _
  have hc2_sub : c2.Sublist kwStage := by
    rw [hc2]
    by_cases h : requiresPdf <;> simp [h, applyStage_sublist]
  have hkw_sub : kwStage.Sublist cands := by
    rw [hkw]
    by_cases h : (urlKeywords.map foldAscii).isEmpty <;>
      simp [h, applyStage_sublist]
  have hdedupe_sub : (dedupeEntries c3).Sublist c3 := dedupeEntriesGo_sublist c3 []
  have hmem_cands : ∀ item ∈ dedupeEntries c3, item ∈ cands := by
    intro item hitem
    exact hkw_sub.mem (hc2_sub.mem (hc3_sub.mem (hdedupe_sub.mem hitem)))
  refine ⟨?_, ?_, ?_, ?_, ?_, ?_⟩
  · intro c hc
    rcases List.mem_map.mp hc with ⟨pr, hpr, heq⟩
    have hpr_kept : pr ∈ kept := hperm.mem_iff.mp (hmem_take pr hpr)
    have := List.of_mem_filter hpr_kept
    rw [← heq, ← hscored_snd pr (hkept_sub.mem hpr_kept)]
    exact of_decide_eq_true this
  · have hsort : sorted.Pairwise (fun a b => decide (b.2 ≤ a.2) = true) := by
      apply List.sorted_mergeSort
      · intro a b c hab hbc
        rw [decide_eq_true_eq] at *
        exact le_trans hbc hab
      · intro a b
        rw [Bool.or_eq_true, decide_eq_true_eq, decide_eq_true_eq]
        exact le_total b.2 a.2
    have hsort2 : (sorted.take maxDocs).Pairwise
        (fun a b => scoreFn b.1 ≤ scoreFn a.1) := by
      refine ((hsort.sublist (List.take_sublist maxDocs sorted)).imp_of_mem ?_)
      intro a b ha hb hab
      rw [decide_eq_true_eq] at hab
      rw [← hscored_snd a (hmem_scored a (hmem_take a ha)),
        ← hscored_snd b (hmem_scored b (hmem_take b hb))]
      exact hab
    exact List.pairwise_map.mpr hsort2
  · calc ((sorted.take maxDocs).map (fun pr => pr.1)).length
        = (sorted.take maxDocs).length := List.length_map _ _
      _ ≤ maxDocs := List.length_take_le maxDocs sorted
  · have hddnodup : ((dedupeEntries c3).map (fun c => c.url)).Nodup :=
      dedupeEntriesGo_nodup c3 []
    have hscored_nodup : (scored.map (fun pr => pr.1.url)).Nodup := by
      rw [hscored, List.map_map]
      exact hddnodup
    have hkept_nodup : (kept.map (fun pr => pr.1.url)).Nodup :=
      (hkept_sub.map (fun pr => pr.1.url)).nodup hscored_nodup
    have hsorted_nodup : (sorted.map (fun pr => pr.1.url)).Nodup :=
      ((hperm.map (fun pr => pr.1.url)).symm).nodup hkept_nodup
    have htake_nodup : ((sorted.take maxDocs).map (fun pr => pr.1.url)).Nodup :=
      ((List.take_sublist maxDocs sorted).map (fun pr => pr.1.url)).nodup
        hsorted_nodup
    rw [List.map_map]
    exact htake_nodup
  · intro c hc
    rcases List.mem_map.mp hc with ⟨pr, hpr, heq⟩
    have hpr_scored : pr ∈ scored := hmem_scored pr (hmem_take pr hpr)
    rcases List.mem_map.mp hpr_scored with ⟨item, hitem, heq2⟩
    have : pr.1 = item := by rw [← heq2]
    rw [← heq, this]
    exact hmem_cands item hitem
  · intro p l
    constructor
    · intro h
      rw [applyStage, h]
      simp
    · intro h
      rw [applyStage, h]
      simp

/-- Witness for `candidatePipeline_post`: a stage whose filter empties the
pool is skipped, leaving the pool unchanged. -/
theorem candidatePipeline_post_witness :
    (([⟨"a", "t"⟩] : List AutoCandidate).filter (fun _ => false)).isEmpty = true ∧
    applyStage (fun _ => false) [⟨"a", "t"⟩] = [⟨"a", "t"⟩] :=
  ⟨by decide,
    ((candidatePipeline_post [] false (fun _ => none) (fun _ => 3) 5
        []).2.2.2.2.2 (fun _ => false) [⟨"a", "t"⟩]).2 (by decide)⟩

end KpiScrape
